import Mathlib

set_option maxRecDepth 40000

/-!
Verification development for the Interactive Grid World simulation in
`src/components/InteractiveGridWorld.tsx` (the Active Inference tutorial's
agent simulation).

The numerical core of the component is shallowly embedded here:

* rational numbers (`ℚ`) stand in for JavaScript numbers wherever the code
  performs only field arithmetic and comparisons (belief prediction,
  Bayesian update, memory update, hunger accounting);
* real numbers (`ℝ`) together with `Real.exp` are used for the softmax over
  expected-free-energy values, and a small inductive type `JSVal` models the
  IEEE special values (`Infinity`, `-Infinity`, `NaN`) that the softmax and
  the EFE clamping treat specially;
* beliefs over the 10×10 grid are total functions `Fin 100 → ℚ`, matching the
  flattened `number[]` arrays of length `NUM_CELLS` in the source.

Definition names follow the source names where Lean permits.
-/

/-! ### Constants (source lines 5-10) -/

def GRID_SIZE : ℕ := 10

def MAX_HUNGER : ℚ := 20

def POLICY_LENGTH : ℕ := 3

def NUM_CELLS : ℕ := GRID_SIZE * GRID_SIZE

/-- `EPSILON = 1e-9`, the numerical-stability cutoff used throughout. -/
def EPSILON : ℚ := 1 / 1000000000

/-! ### Locations and the flat-index correspondence (source lines 66-73) -/

/-- A grid location `{ r, c }`; the source stores both coordinates as
JavaScript numbers that are always integers, so we use `ℤ × ℤ`. -/
abbrev Loc := ℤ × ℤ

/-- `isValid` from the source: `loc.r >= 0 && loc.r < GRID_SIZE && loc.c >= 0
&& loc.c < GRID_SIZE`. -/
abbrev isValidLoc (l : Loc) : Prop :=
  0 ≤ l.1 ∧ l.1 < 10 ∧ 0 ≤ l.2 ∧ l.2 < 10

/-- `indexToLoc`: flat index to `(row, col)`. -/
def indexToLoc (i : Fin 100) : Loc := ((i : ℤ) / 10, (i : ℤ) % 10)

/-- `locToIndex`: `loc.r * GRID_SIZE + loc.c` as a natural number. -/
def locToIndex (l : Loc) : ℕ := (l.1 * 10 + l.2).toNat

/-- `locToIndex` packaged as a `Fin 100`.  The source only ever indexes an
array with `locToIndex` after an `isValid` check, so the out-of-range default
(index `0`) is never reached on the code paths modelled here. -/
def locToFin (l : Loc) : Fin 100 :=
  if h : isValidLoc l then ⟨locToIndex l, by
    obtain ⟨h1, h2, h3, h4⟩ := h
    unfold locToIndex
    omega⟩
  else ⟨0, by omega⟩

/-! ### Actions and the transition model (source lines 16-25, 347-433) -/

inductive AgentAction where
  | stay | up | down | left | right
deriving DecidableEq

/-- `ACTION_DELTAS`. -/
def ACTION_DELTAS : AgentAction → Loc
  | .stay => (0, 0)
  | .up => (-1, 0)
  | .down => (1, 0)
  | .left => (0, -1)
  | .right => (0, 1)

abbrev Policy := List AgentAction

/-- Add a delta to a location. -/
def addLoc (l d : Loc) : Loc := (l.1 + d.1, l.2 + d.2)

/-- The location the action tries to move to from cell `i`. -/
def intendedLoc (a : AgentAction) (i : Fin 100) : Loc :=
  addLoc (indexToLoc i) (ACTION_DELTAS a)

/-- Whether the intended move from cell `i` remains on the grid
(`isIntendedMoveValid` in the source). -/
abbrev intendedValid (a : AgentAction) (i : Fin 100) : Prop :=
  isValidLoc (intendedLoc a i)

/-- `targetIndex`: where the success mass goes (stays put if invalid). -/
def actionTarget (a : AgentAction) (i : Fin 100) : Fin 100 :=
  if intendedValid a i then locToFin (intendedLoc a i) else i

/-- Orthogonal slip deltas: left/right when moving vertically, up/down when
moving horizontally, none for `stay`. -/
def slipDeltas : AgentAction → List Loc
  | .stay => []
  | .up => [(0, -1), (0, 1)]
  | .down => [(0, -1), (0, 1)]
  | .left => [(-1, 0), (1, 0)]
  | .right => [(-1, 0), (1, 0)]

/-- The slip locations from cell `i` that remain on the grid. -/
def validSlipLocs (a : AgentAction) (i : Fin 100) : List Loc :=
  ((slipDeltas a).map (fun d => addLoc (indexToLoc i) d)).filter
    (fun l => decide (isValidLoc l))

def numValidSlips (a : AgentAction) (i : Fin 100) : ℕ := (validSlipLocs a i).length

def slipTargets (a : AgentAction) (i : Fin 100) : List (Fin 100) :=
  (validSlipLocs a i).map locToFin

/-- Transition-model constants from `predictBeliefSequence`. -/
def actionSuccessProb : ℚ := 85 / 100

def stayProb : ℚ := 10 / 100

def slipFraction : ℚ := 1 - actionSuccessProb - stayProb

def futilityCostPerInvalidStep : ℚ := 5

/-- `slipProbPerLoc = numValidSlips > 0 ? slipFraction / numValidSlips : 0`. -/
def slipProbPerLoc (a : AgentAction) (i : Fin 100) : ℚ :=
  if 0 < numValidSlips a i then slipFraction / (numValidSlips a i : ℚ) else 0

/-- The coefficient with which source cell `i`'s mass contributes to target
cell `j` in one transition step.  This is exactly the sum of the
`nextBelief[...] += currentBelief[i] * …` statements of the source's inner
loop, with `currentBelief[i]` factored out:

* success mass `actionSuccessProb` goes to `targetIndex`;
* `stayProb` is added at `i` only when the action moves and the move is valid;
* for `stay`, `stayProb + slipFraction` is added at `i`;
* for an invalid move, the unused `slipFraction` is added back at `i`
  (the source's `else if (!isIntendedMoveValid)` branch — note that no branch
  re-adds `stayProb` in this case);
* each valid slip location receives `slipProbPerLoc` (the source guards this
  with `slipProbPerLoc > 0`, which is equivalent to the slip-target list being
  nonempty, and the `count` below is `0` exactly when that list is empty);
* if the move is valid but no slip location is (impossible on a 10×10 grid,
  yet present in the source), `slipFraction` is added back at `i`. -/
def transCoeff (a : AgentAction) (i j : Fin 100) : ℚ :=
  (if j = actionTarget a i then actionSuccessProb else 0)
  + (if a ≠ AgentAction.stay ∧ intendedValid a i ∧ j = i then stayProb else 0)
  + (if a = AgentAction.stay ∧ j = i then stayProb + slipFraction else 0)
  + (if a ≠ AgentAction.stay ∧ ¬ intendedValid a i ∧ j = i then slipFraction else 0)
  + (if a ≠ AgentAction.stay ∧ intendedValid a i then
      ((slipTargets a i).count j : ℚ) * slipProbPerLoc a i else 0)
  + (if a ≠ AgentAction.stay ∧ intendedValid a i ∧ numValidSlips a i = 0 ∧ j = i then
      slipFraction else 0)

/-! ### Beliefs (source lines 76-77, 357-433) -/

/-- `uniformBelief()`: `Array(NUM_CELLS).fill(1 / NUM_CELLS)`. -/
def uniformBelief : Fin 100 → ℚ := fun _ => 1 / 100

/-- The unnormalized next belief: every cell with mass above `EPSILON`
distributes its mass according to `transCoeff` (cells at or below `EPSILON`
are skipped by the source's `if (currentBelief[i] > EPSILON)` guard). -/
def nextBeliefRaw (a : AgentAction) (b : Fin 100 → ℚ) : Fin 100 → ℚ :=
  fun j => ∑ i, (if EPSILON < b i then b i * transCoeff a i j else 0)

/-- The futility mass accumulated in a single step: the belief mass of every
cell whose intended move would leave the grid. -/
def stepFutility (a : AgentAction) (b : Fin 100 → ℚ) : ℚ :=
  ∑ i, (if EPSILON < b i ∧ ¬ intendedValid a i then b i else 0)

/-- End-of-step normalization: divide by the total if it exceeds `EPSILON`,
otherwise reset to the uniform belief (the source's
`if (sum > EPSILON) … else currentBelief = uniformBelief()`). -/
def normalizeOrUniform (v : Fin 100 → ℚ) : Fin 100 → ℚ :=
  if EPSILON < ∑ j, v j then fun j => v j / ∑ j, v j else uniformBelief

/-- One full transition step of `predictBeliefSequence`. -/
def predictStep (a : AgentAction) (b : Fin 100 → ℚ) : Fin 100 → ℚ :=
  normalizeOrUniform (nextBeliefRaw a b)

/-- `predictBeliefSequence`: the list of predicted beliefs (starting with the
initial belief, one entry per executed action) together with the accumulated
futility penalty `Σ stepFutility * futilityCostPerInvalidStep`. -/
def predictBeliefSequence : Policy → (Fin 100 → ℚ) → List (Fin 100 → ℚ) × ℚ
  | [], b => ([b], 0)
  | a :: rest, b =>
    let r := predictBeliefSequence rest (predictStep a b)
    (b :: r.1, stepFutility a b * futilityCostPerInvalidStep + r.2)

/-! ### Bayesian perception update (source lines 590-616)

The update multiplies the predicted (prior) belief pointwise with the
likelihood row `likelihood_p_o_given_s(o, ·, σ)` of the sampled observation
`o` and renormalizes, resetting to uniform on underflow.  We parametrize over
the likelihood row `L`; the σ ≤ 0 instance is `likelihoodSigma0` below, and
for σ > 0 the source's row is `exp(-dist²/(2σ²))`, which is positive
everywhere. -/

/-- The unnormalized posterior: `likelihood * prior` at cells whose prior
exceeds `EPSILON`, `0` elsewhere (the source's `if (priorProb > EPSILON)`). -/
def bayesRaw (L prior : Fin 100 → ℚ) : Fin 100 → ℚ :=
  fun s => if EPSILON < prior s then L s * prior s else 0

/-- The normalized posterior belief, resetting to uniform if the
normalization constant does not exceed `EPSILON`. -/
def bayesPosterior (L prior : Fin 100 → ℚ) : Fin 100 → ℚ :=
  if EPSILON < ∑ s, bayesRaw L prior s then
    fun s => bayesRaw L prior s / ∑ s, bayesRaw L prior s
  else uniformBelief

/-! ### Observation likelihood and inverse-CDF sampling
(source lines 132-139, 495-511, 553-588) -/

/-- The σ ≤ 0 branch of `likelihood_p_o_given_s`: a perfect observation,
`obsIndex === stateIndex ? 1.0 : 0.0`.  (For σ > 0 the source returns
`exp(-dist²/(2σ²))`; that branch involves the real exponential and is covered
abstractly through the likelihood-row parameter of `bayesPosterior`.) -/
def likelihoodSigma0 (o s : Fin 100) : ℚ := if o = s then 1 else 0

/-- The normalized observation distribution for σ ≤ 0: the likelihood row at
the true location, divided by its total when that exceeds `EPSILON`;
otherwise the source's σ ≤ 0 fallback puts probability 1 at the true
location. -/
def obsDistSigma0 (t : Fin 100) : Fin 100 → ℚ :=
  if EPSILON < ∑ o, likelihoodSigma0 o t then
    fun o => likelihoodSigma0 o t / ∑ o, likelihoodSigma0 o t
  else fun o => if o = t then 1 else 0

/-- The inverse-CDF loop shared by observation sampling and policy sampling:
`for (i = 0; i < length; i++) { cum += probs[i]; if (u <= cum) return i }`,
returning `none` when the loop never breaks.  `n` counts the remaining
iterations, `acc` is the running cumulative probability and `k` the current
index. -/
def cdfLoop {α : Type} [LinearOrderedField α] (f : ℕ → α) (u : α) :
    ℕ → α → ℕ → Option ℕ
  | 0, _, _ => none
  | n + 1, acc, k => if u ≤ acc + f k then some k else cdfLoop f u n (acc + f k) (k + 1)

/-- Observation sampling for σ ≤ 0: run the inverse-CDF loop over the 100
entries of `obsDistSigma0 t`; if the loop never breaks the source keeps the
default `locToIndex(finalTrueLocation)`, i.e. the true index. -/
def sampleObservationSigma0 (t : Fin 100) (u : ℚ) : ℕ :=
  match cdfLoop (fun k => if h : k < 100 then obsDistSigma0 t ⟨k, h⟩ else 0) u 100 0 0 with
  | some k => k
  | none => t.val

/-! ### Grid contents and placement (source lines 13, 156-171) -/

inductive GridCell where
  | empty | food | predator | shelter | agent
deriving DecidableEq

/-- Build a grid function from the three location lists, writing food first,
then predators, then shelters (later writes win, as in the source's
`forEach` placement sequence). -/
def mkGrid (foodL predL shelL : List Loc) : Fin 100 → GridCell :=
  fun i =>
    if indexToLoc i ∈ shelL then GridCell.shelter
    else if indexToLoc i ∈ predL then GridCell.predator
    else if indexToLoc i ∈ foodL then GridCell.food
    else GridCell.empty

/-- The initial environment's grid: food at (2,7), predator at (8,2), shelter
at (5,5). -/
def initialGridFun : Fin 100 → GridCell := mkGrid [(2, 7)] [(8, 2)] [(5, 5)]

/-! ### Memory update (source lines 618-650) -/

structure KnownLocations where
  food : List Loc
  predator : List Loc
  shelter : List Loc
deriving DecidableEq

/-- `memoryBeliefThreshold = 0.6`. -/
def memoryBeliefThreshold : ℚ := 6 / 10

/-- The add-to-memory part of one memory-update iteration: the source's
`if … else if … else if …` chain pushing the location onto the matching list
when the supplied grid shows food/predator/shelter there and it is not
already known. -/
def memoryAdd (grid : Fin 100 → GridCell) (acc : KnownLocations)
    (i : Fin 100) : KnownLocations :=
  if grid i = GridCell.food ∧ indexToLoc i ∉ acc.food then
    { acc with food := acc.food ++ [indexToLoc i] }
  else if grid i = GridCell.predator ∧ indexToLoc i ∉ acc.predator then
    { acc with predator := acc.predator ++ [indexToLoc i] }
  else if grid i = GridCell.shelter ∧ indexToLoc i ∉ acc.shelter then
    { acc with shelter := acc.shelter ++ [indexToLoc i] }
  else acc

/-- One iteration of the memory-update scan at cell `i`: if the posterior
belief there exceeds the threshold, run the add chain, and afterwards drop
the location from the food list when the grid does not show food there. -/
def memoryStep (belief : Fin 100 → ℚ) (grid : Fin 100 → GridCell)
    (acc : KnownLocations) (i : Fin 100) : KnownLocations :=
  if memoryBeliefThreshold < belief i then
    if grid i ≠ GridCell.food then
      { memoryAdd grid acc i with
        food := (memoryAdd grid acc i).food.filter (fun k => k ≠ indexToLoc i) }
    else memoryAdd grid acc i
  else acc

/-- The full memory-update scan over all 100 cells.  NOTE: at this point the
source reads `environment.grid`, the grid captured at the start of the cycle,
even though food may have been consumed earlier in the same cycle (its own
comment says «Check ground truth grid *after* policy execution»); the grid is
therefore a parameter here so that both behaviours can be compared. -/
def memoryUpdate (belief : Fin 100 → ℚ) (grid : Fin 100 → GridCell)
    (known : KnownLocations) : KnownLocations :=
  (List.finRange 100).foldl (memoryStep belief grid) known

/-! ### Policy execution on the true state (source lines 516-546) -/

structure ExecState where
  loc : Loc
  grid : Fin 100 → GridCell
  foodLocs : List Loc
  ate : Bool
  visited : List Loc

/-- The next true location under an action: the intended move, clamped back
to the current location when it would leave the grid. -/
def execNext (st : ExecState) (a : AgentAction) : Loc :=
  if isValidLoc (addLoc st.loc (ACTION_DELTAS a)) then addLoc st.loc (ACTION_DELTAS a)
  else st.loc

/-- One action of the execution phase: move the true location (clamped to the
grid), then consume food at the new location if present (empty the cell,
filter the food-location list, set the ate flag). -/
def execStep (st : ExecState) (a : AgentAction) : ExecState :=
  if st.grid (locToFin (execNext st a)) = GridCell.food then
    { loc := execNext st a
      grid := Function.update st.grid (locToFin (execNext st a)) GridCell.empty
      foodLocs := st.foodLocs.filter (fun k => k ≠ execNext st a)
      ate := true
      visited := st.visited ++ [execNext st a] }
  else
    { st with loc := execNext st a, visited := st.visited ++ [execNext st a] }

/-- The whole execution phase for a chosen policy, starting from the agent's
true location and a working copy of the grid and food list. -/
def execPolicy (policy : Policy) (loc0 : Loc) (grid0 : Fin 100 → GridCell)
    (food0 : List Loc) : ExecState :=
  policy.foldl execStep ⟨loc0, grid0, food0, false, []⟩

/-- `finalHunger`: 0 when food was eaten this cycle, otherwise
`min(hunger + POLICY_LENGTH, MAX_HUNGER + 5)`. -/
def finalHunger (hunger : ℚ) (st : ExecState) : ℚ :=
  if st.ate then 0 else min (hunger + (POLICY_LENGTH : ℚ)) (MAX_HUNGER + 5)

/-- The induction invariant for the execution phase, relative to the starting
grid and food list: the true location stays on the grid, visited cells hold
no food afterwards, nothing changes while no food was eaten, food only
disappears, an eaten flag comes with a consumed entry of the starting food
list and with a visited cell that held food at the start, and the grid and
the food-location list stay coherent. -/
def ExecInv (grid0 : Fin 100 → GridCell) (food0 : List Loc) (st : ExecState) : Prop :=
  isValidLoc st.loc
  ∧ (∀ p ∈ st.visited, st.grid (locToFin p) ≠ GridCell.food)
  ∧ (st.ate = false → st.grid = grid0 ∧ st.foodLocs = food0)
  ∧ (∀ i, st.grid i = GridCell.food → grid0 i = GridCell.food)
  ∧ (st.ate = true → ∃ p, p ∈ food0 ∧ p ∉ st.foodLocs)
  ∧ (∀ i, st.grid i = GridCell.food → indexToLoc i ∈ st.foodLocs)
  ∧ (∀ p, p ∈ st.foodLocs → p ∈ food0)
  ∧ (st.ate = true → ∃ p, p ∈ st.visited ∧ grid0 (locToFin p) = GridCell.food)

/-! ### Simulation state and reset (source lines 147-229, 719-761) -/

inductive Weather where
  | sunny | cloudy
deriving DecidableEq

inductive SimulationPhase where
  | Planning | ExecutingPerceiving | Paused | Idle
deriving DecidableEq

structure AgentState where
  trueLocation : Loc
  belief : Fin 100 → ℚ
  hunger : ℚ
  previousTrueLocation : Option Loc

structure EnvironmentState where
  grid : Fin 100 → GridCell
  weather : Weather
  foodLocations : List Loc
  predatorLocations : List Loc
  shelterLocations : List Loc

/-- The peaked initial/reset belief: `0.01/(NUM_CELLS-1)` everywhere except
`0.99` at the given index, then normalized by its total. -/
def peakedBelief (idx : Fin 100) : Fin 100 → ℚ :=
  let base : Fin 100 → ℚ := fun i => if i = idx then 99 / 100 else 1 / 100 / 99
  fun i => base i / ∑ j, base j

/-- The mount-time agent state: true location (0,0) with belief peaked
there. -/
def initialAgent : AgentState :=
  { trueLocation := (0, 0)
    belief := peakedBelief (locToFin (0, 0))
    hunger := 0
    previousTrueLocation := none }

/-- The mount-time environment: food at (2,7), predator at (8,2), shelter at
(5,5), sunny. -/
def initialEnvironment : EnvironmentState :=
  { grid := initialGridFun
    weather := Weather.sunny
    foodLocations := [(2, 7)]
    predatorLocations := [(8, 2)]
    shelterLocations := [(5, 5)] }

/-- The slice of the component state touched by `handleReset`: the scheduler
flags and counter, the agent, the environment, the planning outputs and the
memory.  `pendingTimer` models whether a `setTimeout` cycle is scheduled. -/
structure SimState where
  isRunning : Bool
  pendingTimer : Bool
  stepCounter : ℕ
  simulationPhase : SimulationPhase
  lastObservationIndex : Option ℕ
  agent : AgentState
  environment : EnvironmentState
  selectedPolicy : Option Policy
  policyProbabilities : List ℝ
  knownLocations : KnownLocations

/-- The state at simulation start (mount). -/
def initialSimState : SimState :=
  { isRunning := false
    pendingTimer := false
    stepCounter := 0
    simulationPhase := SimulationPhase.Idle
    lastObservationIndex := none
    agent := initialAgent
    environment := initialEnvironment
    selectedPolicy := none
    policyProbabilities := []
    knownLocations := ⟨[], [], []⟩ }

/-- `handleReset`: stop the loop, clear the pending timer, zero the counter,
return to Idle, clear the last observation, place the agent at the grid
centre `(GRID_SIZE/2, GRID_SIZE/2) = (5,5)` with a belief peaked there,
clear the planning outputs and the memory, and rebuild the grid and the item
lists — keeping the current weather (`...prev` spreads everything else and
the comment says «Keep weather setting»). -/
def handleReset (s : SimState) : SimState :=
  { isRunning := false
    pendingTimer := false
    stepCounter := 0
    simulationPhase := SimulationPhase.Idle
    lastObservationIndex := none
    agent :=
      { trueLocation := (5, 5)
        belief := peakedBelief (locToFin (5, 5))
        hunger := 0
        previousTrueLocation := none }
    environment :=
      { grid := initialGridFun
        weather := s.environment.weather
        foodLocations := [(2, 7)]
        predatorLocations := [(8, 2)]
        shelterLocations := [(5, 5)] }
    selectedPolicy := none
    policyProbabilities := []
    knownLocations := ⟨[], [], []⟩ }

/-! ### JavaScript numeric special values, softmax and EFE guarding
(source lines 108-128, 438-469, 490-511) -/

/-- A JavaScript number as far as the softmax and the EFE guard care: either
an (exact) finite value, one of the two infinities, or `NaN`. -/
inductive JSVal where
  | fin : ℝ → JSVal
  | inf : JSVal
  | neginf : JSVal
  | nan : JSVal

/-- `isFinite`. -/
def JSVal.isFinite : JSVal → Bool
  | .fin _ => true
  | _ => false

/-- `isNaN`. -/
def JSVal.isNaN : JSVal → Bool
  | .nan => true
  | _ => false

/-- Extract the finite value, if any. -/
def JSVal.toReal? : JSVal → Option ℝ
  | .fin x => some x
  | _ => none

/-- The finite entries of the EFE array (`values.filter(isFinite)`). -/
def finiteVals (values : List JSVal) : List ℝ :=
  values.filterMap JSVal.toReal?

/-- `Math.max(...)` over a list, via a fold (only used on nonempty lists, as
in the source). -/
noncomputable def maxList : List ℝ → ℝ
  | [] => 0
  | x :: xs => xs.foldl max x

/-- `EPSILON` as a real number, for the softmax underflow test. -/
noncomputable def EPSILON_R : ℝ := 1 / 1000000000

/-- The softmax weight of one entry: `exp(-precision * (val - maxVal))` for a
finite value, `0` for `Infinity`/`-Infinity`/`NaN`. -/
noncomputable def softmaxWeight (precision maxVal : ℝ) : JSVal → ℝ
  | .fin x => Real.exp (-precision * (x - maxVal))
  | _ => 0

/-- The full weight vector (the shift is by the maximum finite value, as in
the source's `Math.max(...finiteValues)`). -/
noncomputable def softmaxWeights (values : List JSVal) (precision : ℝ) : List ℝ :=
  values.map (softmaxWeight precision (maxList (finiteVals values)))

/-- `calculateSoftmax`: uniform when no entry is finite; otherwise weight,
then — if the weight sum underflows below `EPSILON` — probability 1 on a
unique finite entry or uniform, and in the normal case weights divided by
their sum. -/
noncomputable def calculateSoftmax (values : List JSVal) (precision : ℝ) : List ℝ :=
  if (finiteVals values).length = 0 then
    values.map (fun _ => 1 / (values.length : ℝ))
  else if (softmaxWeights values precision).sum < EPSILON_R then
    if (finiteVals values).length = 1 then
      values.map (fun v => if v.isFinite then 1 else 0)
    else values.map (fun _ => 1 / (values.length : ℝ))
  else
    (softmaxWeights values precision).map
      (fun w => w / (softmaxWeights values precision).sum)

/-- JavaScript `Math.min` on our value domain: `NaN` absorbs, `-Infinity`
wins, `Infinity` loses. -/
noncomputable def jsMin : JSVal → JSVal → JSVal
  | .nan, _ => .nan
  | _, .nan => .nan
  | .neginf, _ => .neginf
  | _, .neginf => .neginf
  | .inf, b => b
  | a, .inf => a
  | .fin x, .fin y => .fin (min x y)

/-- JavaScript `Math.max` on our value domain. -/
noncomputable def jsMax : JSVal → JSVal → JSVal
  | .nan, _ => .nan
  | _, .nan => .nan
  | .inf, _ => .inf
  | _, .inf => .inf
  | .neginf, b => b
  | a, .neginf => a
  | .fin x, .fin y => .fin (max x y)

/-- The tail of `calculateEFE`: clamp the computed EFE to `[-1000, 1000]` and
map `NaN` to `+Infinity` (`isNaN(clampedEFE) ? Infinity : clampedEFE`).  The
argument ranges over every value the floating-point EFE expression could
take, including the special values. -/
noncomputable def clampEFE (efe : JSVal) : JSVal :=
  let clamped := jsMax (.fin (-1000)) (jsMin (.fin 1000) efe)
  if clamped.isNaN then .inf else clamped

/-- The policy-selection sampler (source lines 495-509): run the inverse-CDF
loop over the probability array with the draw `u`; `selectedPolicyIndex` is
initialized to 0, so when the loop never breaks the index stays 0.  (The
source's subsequent `selectedPolicyIndex >= policies.length` repair branch is
unreachable: the value is either 0 or an index produced by the loop, both of
which are below the length whenever the policy list is nonempty.) -/
noncomputable def selectPolicyIdx (probs : List ℝ) (u : ℝ) : ℕ :=
  match cdfLoop (fun k => probs.getD k 0) u probs.length 0 0 with
  | some k => k
  | none => 0

/-! ### Concrete inputs used by counterexamples and bug demonstrations -/

/-- A belief with half the mass at the corner (0,0) and half at (5,5). -/
def halfBelief : Fin 100 → ℚ :=
  fun i => if i = locToFin (0, 0) then 1 / 2 else if i = locToFin (5, 5) then 1 / 2 else 0

/-- A one-hot belief at the corner (0,0). -/
def oneHotCorner : Fin 100 → ℚ := fun i => if i = locToFin (0, 0) then 1 else 0

/-- A posterior with mass 0.7 at (2,7) and the rest spread evenly: above the
memory threshold exactly at (2,7). -/
def beliefAtFood : Fin 100 → ℚ :=
  fun i => if i = locToFin (2, 7) then 7 / 10 else 3 / 990

/-- A probability distribution with a positive entry below `EPSILON` at cell
0: `1e-10` at cell 0, the remainder at cell 1. -/
def tinyEntryPrior : Fin 100 → ℚ :=
  fun i => if i = 0 then 1 / 10000000000 else if i = 1 then 1 - 1 / 10000000000 else 0

/-- `Math.min(...)` over a list, via a fold (companion to `maxList`). -/
noncomputable def minList : List ℝ → ℝ
  | [] => 0
  | x :: xs => xs.foldl min x

/-- Modelled from the spec's words for the refinement comparison: the
`min_finite_efe` shift the spec describes (`prob[i] ∝
exp(-γ * (efe[i] - min_finite_efe))`).  The source shifts by the maximum
finite value instead; in exact arithmetic the normalized results agree up to
the positive proportionality constant exhibited in the claim-C2 theorem. -/
noncomputable def specMinFiniteEFE (values : List JSVal) : ℝ :=
  minList (finiteVals values)

/-- The mount-time state with the weather toggled to cloudy (the weather
toggle is a UI input). -/
def cloudyStart : SimState :=
  { initialSimState with
    environment := { initialSimState.environment with weather := Weather.cloudy } }

/-! ## Helper lemmas -/

theorem EPSILON_pos : (0 : ℚ) < EPSILON := by norm_num [EPSILON]

theorem slipProbPerLoc_nonneg (a : AgentAction) (i : Fin 100) :
    0 ≤ slipProbPerLoc a i := by
  unfold slipProbPerLoc
  split_ifs with h
  · apply div_nonneg
    · norm_num [slipFraction, actionSuccessProb, stayProb]
    · positivity
  · exact le_refl 0

theorem transCoeff_nonneg (a : AgentAction) (i j : Fin 100) :
    0 ≤ transCoeff a i j := by
  unfold transCoeff
  refine add_nonneg (add_nonneg (add_nonneg (add_nonneg (add_nonneg ?_ ?_) ?_) ?_) ?_) ?_ <;>
    split_ifs <;>
    first
      | (norm_num [actionSuccessProb, stayProb, slipFraction]; done)
      | exact mul_nonneg (by positivity) (slipProbPerLoc_nonneg a i)

theorem nextBeliefRaw_nonneg (a : AgentAction) (b : Fin 100 → ℚ) (j : Fin 100) :
    0 ≤ nextBeliefRaw a b j := by
  unfold nextBeliefRaw
  apply Finset.sum_nonneg
  intro i _
  split_ifs with h
  · exact mul_nonneg (le_of_lt (lt_trans EPSILON_pos h)) (transCoeff_nonneg a i j)
  · exact le_refl 0

theorem uniformBelief_sum : (∑ i, uniformBelief i) = 1 := by
  simp [uniformBelief, Finset.sum_const, Finset.card_univ]

theorem normalizeOrUniform_nonneg (v : Fin 100 → ℚ) (hv : ∀ j, 0 ≤ v j)
    (j : Fin 100) : 0 ≤ normalizeOrUniform v j := by
  unfold normalizeOrUniform
  split_ifs with h
  · exact div_nonneg (hv j) (le_of_lt (lt_trans EPSILON_pos h))
  · norm_num [uniformBelief]

theorem normalizeOrUniform_sum (v : Fin 100 → ℚ) :
    (∑ j, normalizeOrUniform v j) = 1 := by
  by_cases h : EPSILON < ∑ j, v j
  · have hne : (∑ j, v j) ≠ 0 := ne_of_gt (lt_trans EPSILON_pos h)
    simp only [normalizeOrUniform, if_pos h]
    rw [← Finset.sum_div]
    exact div_self hne
  · simp only [normalizeOrUniform, if_neg h]
    exact uniformBelief_sum

theorem predictStep_nonneg (a : AgentAction) (b : Fin 100 → ℚ) (j : Fin 100) :
    0 ≤ predictStep a b j :=
  normalizeOrUniform_nonneg _ (nextBeliefRaw_nonneg a b) j

theorem predictStep_sum (a : AgentAction) (b : Fin 100 → ℚ) :
    (∑ j, predictStep a b j) = 1 :=
  normalizeOrUniform_sum _

theorem predictBeliefSequence_all_dists (policy : Policy) (b : Fin 100 → ℚ)
    (hb0 : ∀ i, 0 ≤ b i) (hb1 : (∑ i, b i) = 1) :
    ∀ β ∈ (predictBeliefSequence policy b).1, (∀ i, 0 ≤ β i) ∧ (∑ i, β i) = 1 := by
  induction policy generalizing b with
  | nil =>
    intro β hβ
    simp only [predictBeliefSequence, List.mem_singleton] at hβ
    subst hβ
    exact ⟨hb0, hb1⟩
  | cons a rest ih =>
    intro β hβ
    simp only [predictBeliefSequence, List.mem_cons] at hβ
    rcases hβ with hβ | hβ
    · subst hβ; exact ⟨hb0, hb1⟩
    · exact ih (predictStep a b) (predictStep_nonneg a b) (predictStep_sum a b) β hβ

theorem bayesRaw_nonneg (L prior : Fin 100 → ℚ) (hL : ∀ s, 0 ≤ L s)
    (s : Fin 100) : 0 ≤ bayesRaw L prior s := by
  unfold bayesRaw
  split_ifs with h
  · exact mul_nonneg (hL s) (le_of_lt (lt_trans EPSILON_pos h))
  · exact le_refl 0

theorem bayesPosterior_nonneg (L prior : Fin 100 → ℚ) (hL : ∀ s, 0 ≤ L s)
    (s : Fin 100) : 0 ≤ bayesPosterior L prior s := by
  unfold bayesPosterior
  split_ifs with h
  · exact div_nonneg (bayesRaw_nonneg L prior hL s) (le_of_lt (lt_trans EPSILON_pos h))
  · norm_num [uniformBelief]

theorem bayesPosterior_sum (L prior : Fin 100 → ℚ) :
    (∑ s, bayesPosterior L prior s) = 1 := by
  by_cases h : EPSILON < ∑ s, bayesRaw L prior s
  · have hne : (∑ s, bayesRaw L prior s) ≠ 0 := ne_of_gt (lt_trans EPSILON_pos h)
    simp only [bayesPosterior, if_pos h]
    rw [← Finset.sum_div]
    exact div_self hne
  · simp only [bayesPosterior, if_neg h]
    exact uniformBelief_sum

/-! ## Claim C1 -/

/-- C1.  Belief vectors stay probability distributions: for every policy and
every initial belief with non-negative entries summing to 1, every belief in
the sequence returned by `predictBeliefSequence` (the final one included) has
non-negative entries summing to exactly 1; the posterior produced by the
perception update (`bayesPosterior`, for any non-negative likelihood row) is
likewise a probability distribution; and whenever a normalization total falls
below `EPSILON`, both the prediction step and the perception step reset the
belief to the uniform distribution — so a belief is never all-zero. -/
theorem claim_C1_beliefs_stay_distributions :
    (∀ (policy : Policy) (b : Fin 100 → ℚ), (∀ i, 0 ≤ b i) → (∑ i, b i) = 1 →
      ∀ β ∈ (predictBeliefSequence policy b).1, (∀ i, 0 ≤ β i) ∧ (∑ i, β i) = 1)
    ∧ (∀ (L prior : Fin 100 → ℚ), (∀ s, 0 ≤ L s) → (∀ s, 0 ≤ prior s) →
      (∑ s, prior s) = 1 →
      (∀ s, 0 ≤ bayesPosterior L prior s) ∧ (∑ s, bayesPosterior L prior s) = 1)
    ∧ (∀ v : Fin 100 → ℚ, (∑ j, v j) < EPSILON → normalizeOrUniform v = uniformBelief)
    ∧ (∀ L prior : Fin 100 → ℚ, (∑ s, bayesRaw L prior s) < EPSILON →
      bayesPosterior L prior = uniformBelief) := by
  refine ⟨predictBeliefSequence_all_dists, ?_, ?_, ?_⟩
  · intro L prior hL _ _
    exact ⟨bayesPosterior_nonneg L prior hL, bayesPosterior_sum L prior⟩
  · intro v hv
    simp only [normalizeOrUniform, if_neg (not_lt.mpr (le_of_lt hv))]
  · intro L prior h
    simp only [bayesPosterior, if_neg (not_lt.mpr (le_of_lt h))]

/-- Witness for C1 at a concrete input: the uniform belief pushed through the
one-action policy `[up]`, and the posterior for the unit likelihood row. -/
theorem claim_C1_witness :
    (∑ i, (predictBeliefSequence [AgentAction.up] uniformBelief).1.headI i) = 1
    ∧ (∑ s, bayesPosterior (fun _ => 1) uniformBelief s) = 1 := by
  constructor
  · have h := claim_C1_beliefs_stay_distributions.1 [AgentAction.up] uniformBelief
      (fun i => by norm_num [uniformBelief]) uniformBelief_sum
      ((predictBeliefSequence [AgentAction.up] uniformBelief).1.headI)
      (by simp [predictBeliefSequence])
    exact h.2
  · exact (claim_C1_beliefs_stay_distributions.2.1 (fun _ => 1) uniformBelief
      (fun s => by norm_num) (fun s => by norm_num [uniformBelief])
      uniformBelief_sum).2

/-! ## Claim C8 -/

/-- Counterexample potential to C8 as stated: a probability distribution with
a positive entry of `1e-10` (below `EPSILON`) at cell 0 — the Bayesian update
with the unit (uniform) likelihood row zeroes that entry, so the posterior
does not equal the prior. -/
theorem claim_C8_counterexample :
    (∀ i, 0 ≤ tinyEntryPrior i) ∧ (∑ i, tinyEntryPrior i) = 1
    ∧ bayesPosterior (fun _ => 1) tinyEntryPrior 0 ≠ tinyEntryPrior 0 := by
  refine ⟨by with_unfolding_all decide, by with_unfolding_all decide,
    by with_unfolding_all decide⟩

/-- C8, amended.  If the likelihood is uniform over all states with unit
value (the σ → ∞ limit of the source's Gaussian row) and every entry of the
prior distribution is either zero or above `EPSILON`, the normalized
posterior equals the prior — no update is applied. -/
theorem claim_C8_uniform_likelihood (prior : Fin 100 → ℚ)
    (h0 : ∀ s, 0 ≤ prior s) (h1 : (∑ s, prior s) = 1)
    (hbig : ∀ s, prior s ≤ EPSILON → prior s = 0) :
    bayesPosterior (fun _ => 1) prior = prior := by
  have hraw : bayesRaw (fun _ => 1) prior = prior := by
    funext s
    unfold bayesRaw
    split_ifs with h
    · ring
    · exact (hbig s (not_lt.mp h)).symm
  unfold bayesPosterior
  rw [hraw, h1, if_pos (by norm_num [EPSILON])]
  funext s
  exact div_one _

/-- Witness for C8 at the uniform prior. -/
theorem claim_C8_witness :
    bayesPosterior (fun _ => 1) uniformBelief = uniformBelief :=
  claim_C8_uniform_likelihood uniformBelief (by with_unfolding_all decide)
    uniformBelief_sum (by with_unfolding_all decide)

/-! ## Claim C6 -/

/-- When `f` is zero strictly below `t` and one at `t`, the inverse-CDF loop
started anywhere at or below `t` with accumulator 0 stops exactly at `t`, for
any draw in `(0, 1]`. -/
theorem cdfLoop_finds_unit (f : ℕ → ℚ) (u : ℚ) (t : ℕ)
    (hz : ∀ m, m < t → f m = 0) (h1 : f t = 1) (hu0 : 0 < u) (hu1 : u ≤ 1) :
    ∀ n k, k ≤ t → t < k + n → cdfLoop f u n 0 k = some t := by
  intro n
  induction n with
  | zero =>
    intro k hk hlt
    exact absurd hlt (by omega)
  | succ n ih =>
    intro k hk hlt
    by_cases hkt : k = t
    · subst hkt
      simp only [cdfLoop]
      rw [if_pos (by rw [h1]; linarith)]
    · have hklt : k < t := lt_of_le_of_ne hk hkt
      have hfk : f k = 0 := hz k hklt
      simp only [cdfLoop]
      rw [if_neg (by rw [hfk, add_zero]; exact not_le.mpr hu0), hfk, add_zero]
      exact ih (k + 1) (by omega) (by omega)

/-- For σ ≤ 0 the normalized observation distribution is the point mass at
the true location. -/
theorem obsDistSigma0_eq (t o : Fin 100) :
    obsDistSigma0 t o = if o = t then 1 else 0 := by
  have hsum : (∑ o, likelihoodSigma0 o t) = 1 := by
    simp [likelihoodSigma0]
  unfold obsDistSigma0
  rw [hsum, if_pos (by norm_num [EPSILON])]
  simp [likelihoodSigma0]

/-- C6, amended.  With zero observation noise the sampled observation index
equals the flat index of the agent's true location for every value of the
uniform draw in the open interval `(0, 1)` (the source's `u <= cumulative`
comparison makes the draw `u = 0` select index 0 instead, see the
counterexample). -/
theorem claim_C6_deterministic_observation (t : Fin 100) (u : ℚ)
    (hu0 : 0 < u) (hu1 : u < 1) :
    sampleObservationSigma0 t u = t.val := by
  unfold sampleObservationSigma0
  have key : cdfLoop (fun k => if h : k < 100 then obsDistSigma0 t ⟨k, h⟩ else 0)
      u 100 0 0 = some t.val := by
    apply cdfLoop_finds_unit
    · intro m hm
      have hm100 : m < 100 := lt_trans hm t.isLt
      rw [dif_pos hm100, obsDistSigma0_eq, if_neg]
      intro h
      rw [Fin.ext_iff] at h
      simp only [] at h
      omega
    · rw [dif_pos t.isLt, obsDistSigma0_eq, if_pos (by rw [Fin.ext_iff])]
    · exact hu0
    · exact le_of_lt hu1
    · omega
    · simpa using t.isLt
  rw [key]

/-- Counterexample to C6 as stated: with true location at flat index 1 and
the draw exactly 0 (a value the source's `Math.random()` can return), the
sampler returns index 0, not the true index. -/
theorem claim_C6_counterexample :
    sampleObservationSigma0 (1 : Fin 100) 0 ≠ (1 : Fin 100).val := by
  with_unfolding_all decide

/-- Witness for C6 at a concrete draw. -/
theorem claim_C6_witness :
    (0 : ℚ) < 1 / 2 ∧ (1 : ℚ) / 2 < 1
    ∧ sampleObservationSigma0 (7 : Fin 100) (1 / 2) = (7 : Fin 100).val :=
  ⟨by norm_num, by norm_num,
    claim_C6_deterministic_observation 7 (1 / 2) (by norm_num) (by norm_num)⟩

/-! ## Claim C5 -/

/-- Counterexample to C5 as stated: starting from the mount-time state with
cloudy weather, a reset neither restores the agent's true location to its
simulation-start value (0,0) — it places the agent at the centre (5,5) — nor
restores the weather to its simulation-start value (sunny). -/
theorem claim_C5_counterexample :
    (handleReset cloudyStart).agent.trueLocation ≠ initialSimState.agent.trueLocation
    ∧ (handleReset cloudyStart).environment.weather ≠ initialSimState.environment.weather := by
  exact ⟨by decide, by decide⟩

/-- C5, amended.  `handleReset` stops the run loop, cancels any pending
scheduled cycle, zeroes the step counter, returns the phase to Idle, clears
the last observation, the planning outputs and the memory, restores the grid
and the food/predator/shelter location lists and the hunger to their
simulation-start values — but places the agent at the grid centre (5,5) with
a belief peaked there (not at the simulation-start location (0,0)), and keeps
the current weather instead of restoring it. -/
theorem claim_C5_reset (s : SimState) :
    (handleReset s).isRunning = false
    ∧ (handleReset s).pendingTimer = false
    ∧ (handleReset s).stepCounter = 0
    ∧ (handleReset s).simulationPhase = SimulationPhase.Idle
    ∧ (handleReset s).lastObservationIndex = none
    ∧ (handleReset s).agent.trueLocation = (5, 5)
    ∧ (handleReset s).agent.belief = peakedBelief (locToFin (5, 5))
    ∧ (handleReset s).agent.hunger = 0
    ∧ (handleReset s).agent.previousTrueLocation = none
    ∧ (handleReset s).environment.grid = initialEnvironment.grid
    ∧ (handleReset s).environment.foodLocations = initialEnvironment.foodLocations
    ∧ (handleReset s).environment.predatorLocations = initialEnvironment.predatorLocations
    ∧ (handleReset s).environment.shelterLocations = initialEnvironment.shelterLocations
    ∧ (handleReset s).environment.weather = s.environment.weather
    ∧ (handleReset s).selectedPolicy = none
    ∧ (handleReset s).policyProbabilities = []
    ∧ (handleReset s).knownLocations = ⟨[], [], []⟩ :=
  ⟨rfl, rfl, rfl, rfl, rfl, rfl, rfl, rfl, rfl, rfl, rfl, rfl, rfl, rfl, rfl, rfl, rfl⟩

/-! ## Claim C3 -/

theorem locToFin_corner : locToFin (0, 0) = 0 := by with_unfolding_all decide

theorem transCoeff_up_corner :
    ∀ j, transCoeff AgentAction.up 0 j = if j = 0 then 9 / 10 else 0 := by
  with_unfolding_all decide

theorem oneHotCorner_up_fixed : predictStep AgentAction.up oneHotCorner = oneHotCorner := by
  have hone : oneHotCorner 0 = 1 := by with_unfolding_all decide
  have hzero : ∀ i : Fin 100, i ≠ 0 → oneHotCorner i = 0 := by
    with_unfolding_all decide
  have hraw : ∀ j, nextBeliefRaw AgentAction.up oneHotCorner j
      = if j = 0 then 9 / 10 else 0 := by
    intro j
    unfold nextBeliefRaw
    rw [Finset.sum_eq_single 0]
    · rw [hone, if_pos (by norm_num [EPSILON]), one_mul, transCoeff_up_corner]
    · intro i _ hi
      rw [hzero i hi, if_neg (by norm_num [EPSILON])]
    · intro h
      exact absurd (Finset.mem_univ 0) h
  have hsum : (∑ j, nextBeliefRaw AgentAction.up oneHotCorner j) = 9 / 10 := by
    simp only [hraw]
    simp
  unfold predictStep normalizeOrUniform
  rw [hsum, if_pos (by norm_num [EPSILON])]
  funext j
  show nextBeliefRaw AgentAction.up oneHotCorner j / (9 / 10) = oneHotCorner j
  rw [hraw j]
  by_cases hj : j = 0
  · subst hj
    rw [if_pos rfl, hone]
    norm_num
  · rw [if_neg hj, hzero j hj, zero_div]

theorem stepFutility_up_oneHotCorner : stepFutility AgentAction.up oneHotCorner = 1 := by
  have hone : oneHotCorner 0 = 1 := by with_unfolding_all decide
  have hzero : ∀ i : Fin 100, i ≠ 0 → oneHotCorner i = 0 := by
    with_unfolding_all decide
  have hinv : ¬ intendedValid AgentAction.up 0 := by with_unfolding_all decide
  unfold stepFutility
  rw [Finset.sum_eq_single 0]
  · rw [if_pos ⟨by rw [hone]; norm_num [EPSILON], hinv⟩, hone]
  · intro i _ hi
    rw [if_neg]
    rintro ⟨hlt, -⟩
    rw [hzero i hi] at hlt
    exact absurd hlt (by norm_num [EPSILON])
  · intro h
    exact absurd (Finset.mem_univ 0) h

theorem stepFutility_stay (b : Fin 100 → ℚ) : stepFutility AgentAction.stay b = 0 := by
  have hv : ∀ i : Fin 100, intendedValid AgentAction.stay i := by
    with_unfolding_all decide
  unfold stepFutility
  apply Finset.sum_eq_zero
  intro i _
  rw [if_neg]
  rintro ⟨-, h⟩
  exact h (hv i)

/-- C3 (code bug demonstration and supporting facts).

* The corner cell distributes only `9/10` of its mass under the invalid move
  `up` (first conjunct): the `actionSuccessProb = 0.85` success share is
  redirected to "stay" and the unused `slipFraction = 0.05` is added back,
  but the `stayProb = 0.10` share is dropped — the code's own comment claims
  the stay component «happens naturally as targetIndex is 'i'», which is
  false, so not all of the cell's probability mass reaches "stay".
* Concretely, with mass `1/2` at the corner (0,0) and `1/2` at (5,5), the
  un-normalized next belief at the corner under `up` is `9/20`, not `1/2`
  (second conjunct).
* A policy of all `stay` actions accumulates futility penalty exactly 0, for
  any length and any belief (third conjunct).
* From a one-hot belief at the corner (0,0), the all-off-grid policy
  `[up, up, up]` accumulates the strictly positive futility penalty 15
  (fourth conjunct). -/
theorem claim_C3_invalid_move_mass :
    (∑ j, transCoeff AgentAction.up (locToFin (0, 0)) j) = 9 / 10
    ∧ nextBeliefRaw AgentAction.up halfBelief (locToFin (0, 0)) = 9 / 20
    ∧ (∀ (n : ℕ) (b : Fin 100 → ℚ),
        (predictBeliefSequence (List.replicate n AgentAction.stay) b).2 = 0)
    ∧ (predictBeliefSequence [AgentAction.up, AgentAction.up, AgentAction.up]
        oneHotCorner).2 = 15 := by
  refine ⟨by with_unfolding_all decide, by with_unfolding_all decide, ?_, ?_⟩
  · intro n
    induction n with
    | zero => intro b; rfl
    | succ n ih =>
      intro b
      simp only [List.replicate_succ, predictBeliefSequence, stepFutility_stay,
        zero_mul, zero_add]
      exact ih (predictStep AgentAction.stay b)
  · simp only [predictBeliefSequence, oneHotCorner_up_fixed,
      stepFutility_up_oneHotCorner, one_mul]
    norm_num [futilityCostPerInvalidStep]

/-! ## Claim C4 -/

theorem indexToLoc_inj {i j : Fin 100} (h : indexToLoc i = indexToLoc j) : i = j := by
  unfold indexToLoc at h
  rw [Prod.mk.injEq] at h
  have hi := i.isLt
  have hj := j.isLt
  apply Fin.ext
  omega

theorem memoryAdd_food_mem (grid : Fin 100 → GridCell) (acc : KnownLocations)
    (j : Fin 100) {x : Loc} (hx : x ∈ acc.food) : x ∈ (memoryAdd grid acc j).food := by
  unfold memoryAdd
  split_ifs <;> simp_all [List.mem_append]

theorem memoryAdd_food_mem_of_mem (grid : Fin 100 → GridCell) (acc : KnownLocations)
    (j : Fin 100) {x : Loc} (hx : x ∈ (memoryAdd grid acc j).food) :
    x ∈ acc.food ∨ x = indexToLoc j := by
  unfold memoryAdd at hx
  split_ifs at hx <;> simp_all [List.mem_append]

theorem memoryStep_preserves_mem (b : Fin 100 → ℚ) (g : Fin 100 → GridCell)
    (acc : KnownLocations) {i j : Fin 100} (hne : j ≠ i)
    (h : indexToLoc i ∈ acc.food) :
    indexToLoc i ∈ (memoryStep b g acc j).food := by
  have hloc : indexToLoc i ≠ indexToLoc j := fun hc => hne (indexToLoc_inj hc.symm)
  unfold memoryStep
  split_ifs with h1 h2
  · simp only [List.mem_filter]
    exact ⟨memoryAdd_food_mem g acc j h, by simpa using hloc⟩
  · exact memoryAdd_food_mem g acc j h
  · exact h

theorem memoryStep_preserves_not_mem (b : Fin 100 → ℚ) (g : Fin 100 → GridCell)
    (acc : KnownLocations) {i j : Fin 100} (hne : j ≠ i)
    (h : indexToLoc i ∉ acc.food) :
    indexToLoc i ∉ (memoryStep b g acc j).food := by
  have hloc : indexToLoc i ≠ indexToLoc j := fun hc => hne (indexToLoc_inj hc.symm)
  unfold memoryStep
  split_ifs with h1 h2
  · intro hc
    rw [List.mem_filter] at hc
    rcases memoryAdd_food_mem_of_mem g acc j hc.1 with hc' | hc'
    · exact h hc'
    · exact hloc hc'
  · intro hc
    rcases memoryAdd_food_mem_of_mem g acc j hc with hc' | hc'
    · exact h hc'
    · exact hloc hc'
  · exact h

theorem memoryFold_preserves_mem (b : Fin 100 → ℚ) (g : Fin 100 → GridCell)
    {i : Fin 100} :
    ∀ (l : List (Fin 100)) (acc : KnownLocations), (∀ j ∈ l, j ≠ i) →
      indexToLoc i ∈ acc.food →
      indexToLoc i ∈ (l.foldl (memoryStep b g) acc).food := by
  intro l
  induction l with
  | nil => intro acc _ h; exact h
  | cons j t ih =>
    intro acc hl h
    simp only [List.foldl_cons]
    exact ih _ (fun k hk => hl k (List.mem_cons_of_mem j hk))
      (memoryStep_preserves_mem b g acc (hl j (List.mem_cons_self j t)) h)

theorem memoryFold_preserves_not_mem (b : Fin 100 → ℚ) (g : Fin 100 → GridCell)
    {i : Fin 100} :
    ∀ (l : List (Fin 100)) (acc : KnownLocations), (∀ j ∈ l, j ≠ i) →
      indexToLoc i ∉ acc.food →
      indexToLoc i ∉ (l.foldl (memoryStep b g) acc).food := by
  intro l
  induction l with
  | nil => intro acc _ h; exact h
  | cons j t ih =>
    intro acc hl h
    simp only [List.foldl_cons]
    exact ih _ (fun k hk => hl k (List.mem_cons_of_mem j hk))
      (memoryStep_preserves_not_mem b g acc (hl j (List.mem_cons_self j t)) h)

theorem memoryStep_adds (b : Fin 100 → ℚ) (g : Fin 100 → GridCell)
    (acc : KnownLocations) (i : Fin 100) (hthr : memoryBeliefThreshold < b i)
    (hf : g i = GridCell.food) : indexToLoc i ∈ (memoryStep b g acc i).food := by
  unfold memoryStep
  rw [if_pos hthr, if_neg (not_not_intro hf)]
  unfold memoryAdd
  split_ifs with h1 h2 h3 <;> simp_all [List.mem_append]

theorem memoryStep_removes (b : Fin 100 → ℚ) (g : Fin 100 → GridCell)
    (acc : KnownLocations) (i : Fin 100) (hthr : memoryBeliefThreshold < b i)
    (hf : g i ≠ GridCell.food) : indexToLoc i ∉ (memoryStep b g acc i).food := by
  unfold memoryStep
  rw [if_pos hthr, if_pos hf]
  simp [List.mem_filter]

theorem memoryUpdate_adds (b : Fin 100 → ℚ) (g : Fin 100 → GridCell)
    (known : KnownLocations) (i : Fin 100) (hthr : memoryBeliefThreshold < b i)
    (hf : g i = GridCell.food) : indexToLoc i ∈ (memoryUpdate b g known).food := by
  obtain ⟨l₁, l₂, hsplit⟩ := List.append_of_mem (List.mem_finRange i)
  have hnd := List.nodup_finRange 100
  rw [hsplit] at hnd
  have hi2 : i ∉ l₂ := (List.nodup_cons.mp hnd.of_append_right).1
  unfold memoryUpdate
  rw [hsplit, List.foldl_append, List.foldl_cons]
  exact memoryFold_preserves_mem b g l₂ _ (fun j hj hc => hi2 (hc ▸ hj))
    (memoryStep_adds b g _ i hthr hf)

theorem memoryUpdate_removes (b : Fin 100 → ℚ) (g : Fin 100 → GridCell)
    (known : KnownLocations) (i : Fin 100) (hthr : memoryBeliefThreshold < b i)
    (hf : g i ≠ GridCell.food) : indexToLoc i ∉ (memoryUpdate b g known).food := by
  obtain ⟨l₁, l₂, hsplit⟩ := List.append_of_mem (List.mem_finRange i)
  have hnd := List.nodup_finRange 100
  rw [hsplit] at hnd
  have hi2 : i ∉ l₂ := (List.nodup_cons.mp hnd.of_append_right).1
  unfold memoryUpdate
  rw [hsplit, List.foldl_append, List.foldl_cons]
  exact memoryFold_preserves_not_mem b g l₂ _ (fun j hj hc => hi2 (hc ▸ hj))
    (memoryStep_removes b g _ i hthr hf)

/-- C4 (code bug demonstration).  With the initial grid, the agent starting
at (2,6) and the chosen policy `[right, stay, stay]`, the agent eats the food
at (2,7) during the execution phase, so the post-execution ground truth shows
no food there (first two conjuncts) — yet the same cycle's memory update,
which reads the grid captured at the start of the cycle (despite the source's
comment «Check ground truth grid *after* policy execution»), still adds (2,7)
to `knownLocations.food` at that high-belief cell (last two conjuncts)
instead of leaving it out or removing it as the claim requires. -/
theorem claim_C4_stale_grid_memory :
    (execPolicy [AgentAction.right, AgentAction.stay, AgentAction.stay] (2, 6)
      initialGridFun [(2, 7)]).grid (locToFin (2, 7)) ≠ GridCell.food
    ∧ (execPolicy [AgentAction.right, AgentAction.stay, AgentAction.stay] (2, 6)
      initialGridFun [(2, 7)]).foodLocs = []
    ∧ memoryBeliefThreshold < beliefAtFood (locToFin (2, 7))
    ∧ ((2 : ℤ), (7 : ℤ)) ∈ (memoryUpdate beliefAtFood initialGridFun ⟨[], [], []⟩).food := by
  refine ⟨by with_unfolding_all decide, by with_unfolding_all decide,
    by with_unfolding_all decide, by with_unfolding_all decide⟩

/-! ## Claim C9 -/

theorem locToFin_indexToLoc : ∀ i : Fin 100, locToFin (indexToLoc i) = i := by
  with_unfolding_all decide

theorem indexToLoc_locToFin : ∀ l : Loc, isValidLoc l → indexToLoc (locToFin l) = l := by
  rintro ⟨r, c⟩ ⟨h1, h2, h3, h4⟩
  unfold locToFin
  rw [dif_pos ⟨h1, h2, h3, h4⟩]
  unfold indexToLoc locToIndex
  rw [Prod.mk.injEq]
  constructor <;> (simp only [Fin.val_mk]; omega)

theorem execNext_valid (st : ExecState) (a : AgentAction) (h : isValidLoc st.loc) :
    isValidLoc (execNext st a) := by
  unfold execNext
  split_ifs with hv
  · exact hv
  · exact h

theorem execStep_inv (grid0 : Fin 100 → GridCell) (food0 : List Loc)
    (st : ExecState) (a : AgentAction) (hinv : ExecInv grid0 food0 st) :
    ExecInv grid0 food0 (execStep st a) := by
  obtain ⟨v1, v2, v3, v4, v5, v6, v7, v8⟩ := hinv
  have hvnext : isValidLoc (execNext st a) := execNext_valid st a v1
  have hround : indexToLoc (locToFin (execNext st a)) = execNext st a :=
    indexToLoc_locToFin _ hvnext
  unfold execStep
  by_cases hfood : st.grid (locToFin (execNext st a)) = GridCell.food
  · rw [if_pos hfood]
    refine ⟨hvnext, ?_, ?_, ?_, ?_, ?_, ?_, ?_⟩
    · intro p hp
      rw [List.mem_append, List.mem_singleton] at hp
      dsimp only
      rw [Function.update_apply]
      split_ifs with he
      · exact fun hc => absurd hc (by decide)
      · rcases hp with hp | hp
        · exact v2 p hp
        · exact absurd (hp ▸ rfl) he
    · exact fun h => Bool.noConfusion h
    · intro i hi
      dsimp only at hi
      rw [Function.update_apply] at hi
      split_ifs at hi with he
      exact v4 i hi
    · intro _
      refine ⟨execNext st a, ?_, ?_⟩
      · have h6 := v6 (locToFin (execNext st a)) hfood
        rw [hround] at h6
        exact v7 _ h6
      · simp [List.mem_filter]
    · intro i hi
      dsimp only at hi ⊢
      rw [Function.update_apply] at hi
      split_ifs at hi with he
      have h6 := v6 i hi
      rw [List.mem_filter]
      refine ⟨h6, ?_⟩
      have hne : indexToLoc i ≠ execNext st a := by
        intro hc
        apply he
        rw [← locToFin_indexToLoc i, hc]
      simpa using hne
    · intro p hp
      dsimp only at hp
      rw [List.mem_filter] at hp
      exact v7 p hp.1
    · intro _
      exact ⟨execNext st a, by simp, v4 _ hfood⟩
  · rw [if_neg hfood]
    refine ⟨hvnext, ?_, v3, v4, v5, v6, v7, ?_⟩
    · intro p hp
      rw [List.mem_append, List.mem_singleton] at hp
      rcases hp with hp | hp
      · exact v2 p hp
      · rw [hp]
        exact hfood
    · intro h
      obtain ⟨p, hp, hgp⟩ := v8 h
      exact ⟨p, List.mem_append_left _ hp, hgp⟩

theorem execFold_inv (grid0 : Fin 100 → GridCell) (food0 : List Loc) :
    ∀ (policy : Policy) (st : ExecState), ExecInv grid0 food0 st →
      ExecInv grid0 food0 (policy.foldl execStep st) := by
  intro policy
  induction policy with
  | nil => intro st h; exact h
  | cons a rest ih =>
    intro st h
    exact ih _ (execStep_inv grid0 food0 st a h)

theorem execPolicy_inv (policy : Policy) (loc0 : Loc) (grid0 : Fin 100 → GridCell)
    (food0 : List Loc) (hv : isValidLoc loc0)
    (hcoh : ∀ i : Fin 100, grid0 i = GridCell.food → indexToLoc i ∈ food0) :
    ExecInv grid0 food0 (execPolicy policy loc0 grid0 food0) := by
  apply execFold_inv
  refine ⟨hv, ?_, fun _ => ⟨rfl, rfl⟩, fun i h => h, ?_, hcoh, fun p h => h, ?_⟩
  · intro p hp
    exact absurd hp (List.not_mem_nil p)
  · exact fun h => Bool.noConfusion h
  · exact fun h => Bool.noConfusion h

/-- C9.  One execution phase with the chosen policy: food is eaten exactly
when the agent's (clamped) true location lands on a food cell of the evolving
grid at some step; when that happens the hunger is reset to 0, some food cell
of the starting list is removed from the food-location list, and no visited
cell still holds food afterwards; otherwise the grid and the food list are
untouched and the hunger increases by exactly the policy length (here equal
to `POLICY_LENGTH`), capped at `MAX_HUNGER + 5`; in all cases the resulting
hunger lies in `[0, MAX_HUNGER + 5]`. -/
theorem claim_C9_policy_execution (policy : Policy) (loc0 : Loc)
    (grid0 : Fin 100 → GridCell) (food0 : List Loc) (h : ℚ)
    (hv : isValidLoc loc0)
    (hcoh : ∀ i : Fin 100, grid0 i = GridCell.food → indexToLoc i ∈ food0)
    (hh : 0 ≤ h) (hlen : policy.length = POLICY_LENGTH) :
    ((execPolicy policy loc0 grid0 food0).ate = false ↔
      ∀ p ∈ (execPolicy policy loc0 grid0 food0).visited,
        grid0 (locToFin p) ≠ GridCell.food)
    ∧ ((execPolicy policy loc0 grid0 food0).ate = false →
      (execPolicy policy loc0 grid0 food0).grid = grid0
      ∧ (execPolicy policy loc0 grid0 food0).foodLocs = food0
      ∧ finalHunger h (execPolicy policy loc0 grid0 food0)
          = min (h + (policy.length : ℚ)) (MAX_HUNGER + 5))
    ∧ ((execPolicy policy loc0 grid0 food0).ate = true →
      finalHunger h (execPolicy policy loc0 grid0 food0) = 0
      ∧ (∃ p, p ∈ food0 ∧ p ∉ (execPolicy policy loc0 grid0 food0).foodLocs)
      ∧ ∀ p ∈ (execPolicy policy loc0 grid0 food0).visited,
          (execPolicy policy loc0 grid0 food0).grid (locToFin p) ≠ GridCell.food)
    ∧ 0 ≤ finalHunger h (execPolicy policy loc0 grid0 food0)
    ∧ finalHunger h (execPolicy policy loc0 grid0 food0) ≤ MAX_HUNGER + 5 := by
  obtain ⟨v1, v2, v3, v4, v5, v6, v7, v8⟩ := execPolicy_inv policy loc0 grid0 food0 hv hcoh
  refine ⟨⟨?_, ?_⟩, ?_, ?_, ?_, ?_⟩
  · intro hf p hp
    rw [(v3 hf).1] at v2
    exact v2 p hp
  · intro hall
    cases hate : (execPolicy policy loc0 grid0 food0).ate with
    | false => rfl
    | true =>
      obtain ⟨p, hp, hgp⟩ := v8 hate
      exact absurd hgp (hall p hp)
  · intro hf
    refine ⟨(v3 hf).1, (v3 hf).2, ?_⟩
    rw [finalHunger, if_neg (by rw [hf]; exact Bool.false_ne_true), hlen]
  · intro ht
    exact ⟨by rw [finalHunger, if_pos ht], v5 ht, v2⟩
  · rw [finalHunger]
    split_ifs
    · exact le_refl 0
    · exact le_min (by linarith [hh]) (by norm_num [MAX_HUNGER])
  · rw [finalHunger]
    split_ifs
    · norm_num [MAX_HUNGER]
    · exact min_le_right _ _

/-- Witness for C9: the all-stay policy from the initial corner with the
initial grid. -/
theorem claim_C9_witness :
    0 ≤ finalHunger 0 (execPolicy [AgentAction.stay, AgentAction.stay, AgentAction.stay]
      (0, 0) initialGridFun [(2, 7)])
    ∧ finalHunger 0 (execPolicy [AgentAction.stay, AgentAction.stay, AgentAction.stay]
      (0, 0) initialGridFun [(2, 7)]) ≤ MAX_HUNGER + 5 := by
  have h := claim_C9_policy_execution
    [AgentAction.stay, AgentAction.stay, AgentAction.stay] (0, 0) initialGridFun
    [(2, 7)] 0 (by with_unfolding_all decide) (by with_unfolding_all decide)
    (le_refl 0) rfl
  exact ⟨h.2.2.2.1, h.2.2.2.2⟩

/-! ## Softmax helper lemmas (claims C2, C7, C10) -/

theorem softmaxWeight_nonneg (precision maxVal : ℝ) (v : JSVal) :
    0 ≤ softmaxWeight precision maxVal v := by
  cases v <;> simp [softmaxWeight] <;> positivity

theorem maxList_mem : ∀ l : List ℝ, l ≠ [] → maxList l ∈ l := by
  have aux : ∀ (xs : List ℝ) (a : ℝ), xs.foldl max a = a ∨ xs.foldl max a ∈ xs := by
    intro xs
    induction xs with
    | nil => intro a; exact Or.inl rfl
    | cons x t ih =>
      intro a
      rcases ih (max a x) with h | h
      · rcases max_choice a x with hm | hm
        · exact Or.inl (by rw [List.foldl_cons, h, hm])
        · exact Or.inr (by rw [List.foldl_cons, h, hm]; exact List.mem_cons_self x t)
      · exact Or.inr (List.mem_cons_of_mem x h)
  intro l hl
  match l with
  | x :: xs =>
    rcases aux xs x with h | h
    · rw [maxList, h]; exact List.mem_cons_self x xs
    · exact List.mem_cons_of_mem x h

theorem map_weight_sum (γ m : ℝ) : ∀ values : List JSVal,
    (values.map (softmaxWeight γ m)).sum
      = ((finiteVals values).map (fun x => Real.exp (-γ * (x - m)))).sum := by
  intro values
  induction values with
  | nil => rfl
  | cons v t ih =>
    cases v <;>
      simp only [List.map_cons, List.sum_cons, finiteVals, List.filterMap_cons,
        JSVal.toReal?, softmaxWeight] <;>
      rw [← finiteVals] at * <;>
      simp [ih]

theorem one_le_weights_sum (values : List JSVal) (γ : ℝ)
    (hne : finiteVals values ≠ []) : 1 ≤ (softmaxWeights values γ).sum := by
  unfold softmaxWeights
  rw [map_weight_sum]
  have hmem := maxList_mem (finiteVals values) hne
  have h1 : Real.exp (-γ * (maxList (finiteVals values) - maxList (finiteVals values))) = 1 := by
    rw [sub_self, mul_zero, Real.exp_zero]
  have : (1 : ℝ) ∈ (finiteVals values).map
      (fun x => Real.exp (-γ * (x - maxList (finiteVals values)))) := by
    rw [← h1]
    exact List.mem_map_of_mem _ hmem
  exact List.single_le_sum (fun x hx => by
    obtain ⟨y, _, hy⟩ := List.mem_map.mp hx
    rw [← hy]
    positivity) 1 this

theorem softmax_not_underflow (values : List JSVal) (γ : ℝ)
    (hne : finiteVals values ≠ []) :
    ¬ ((softmaxWeights values γ).sum < EPSILON_R) := by
  have h := one_le_weights_sum values γ hne
  rw [not_lt]
  calc EPSILON_R ≤ 1 := by norm_num [EPSILON_R]
    _ ≤ _ := h

theorem softmax_main_branch (values : List JSVal) (γ : ℝ)
    (hne : finiteVals values ≠ []) :
    calculateSoftmax values γ = (softmaxWeights values γ).map
      (fun w => w / (softmaxWeights values γ).sum) := by
  unfold calculateSoftmax
  rw [if_neg (by simpa using fun h => hne (List.length_eq_zero.mp h)),
    if_neg (softmax_not_underflow values γ hne)]

theorem softmax_length (values : List JSVal) (γ : ℝ) :
    (calculateSoftmax values γ).length = values.length := by
  unfold calculateSoftmax
  split_ifs <;> simp [softmaxWeights]

theorem list_sum_map_div : ∀ (l : List ℝ) (c : ℝ),
    (l.map (fun x => x / c)).sum = l.sum / c := by
  intro l c
  induction l with
  | nil => simp
  | cons x t ih => simp [ih, add_div]

theorem softmax_nonneg (values : List JSVal) (γ : ℝ) :
    ∀ p ∈ calculateSoftmax values γ, 0 ≤ p := by
  intro p hp
  unfold calculateSoftmax at hp
  split_ifs at hp with h1 h2 h3
  · obtain ⟨v, _, hv⟩ := List.mem_map.mp hp
    rw [← hv]
    positivity
  · obtain ⟨v, _, hv⟩ := List.mem_map.mp hp
    rw [← hv]
    split_ifs <;> norm_num
  · obtain ⟨v, _, hv⟩ := List.mem_map.mp hp
    rw [← hv]
    positivity
  · obtain ⟨w, hw, hv⟩ := List.mem_map.mp hp
    rw [← hv]
    have hS : (0 : ℝ) < (softmaxWeights values γ).sum := by
      have := one_le_weights_sum values γ (fun hc => h1 (by rw [hc]; rfl))
      linarith
    obtain ⟨v, _, hv'⟩ := List.mem_map.mp hw
    rw [← hv']
    exact div_nonneg (softmaxWeight_nonneg _ _ _) (le_of_lt hS)

theorem softmax_sum_one (values : List JSVal) (γ : ℝ) (hvne : values ≠ []) :
    (calculateSoftmax values γ).sum = 1 := by
  have hlen : (values.length : ℝ) ≠ 0 :=
    Nat.cast_ne_zero.mpr (fun h => hvne (List.length_eq_zero.mp h))
  by_cases hfe : finiteVals values = []
  · unfold calculateSoftmax
    rw [if_pos (by rw [hfe]; rfl)]
    rw [List.map_const', List.sum_replicate, nsmul_eq_mul]
    field_simp
  · rw [softmax_main_branch values γ hfe, list_sum_map_div]
    have h := one_le_weights_sum values γ hfe
    exact div_self (by linarith)

theorem softmax_nonfinite_eq_zero (values : List JSVal) (γ : ℝ)
    (hfe : finiteVals values ≠ []) (i : ℕ) (v : JSVal)
    (hv : values.get? i = some v) (hnf : v.isFinite = false) :
    (calculateSoftmax values γ).get? i = some 0 := by
  rw [softmax_main_branch values γ hfe]
  unfold softmaxWeights
  rw [List.map_map, List.get?_map, hv]
  have hw : softmaxWeight γ (maxList (finiteVals values)) v = 0 := by
    cases v <;> simp_all [softmaxWeight, JSVal.isFinite]
  simp [Function.comp, hw]

/-! ## Claim C10 -/

/-- C10.  For every nonempty array of EFE values — any mix of finite values,
infinities and `NaN` — and every precision, `calculateSoftmax` returns an
array of the same length whose entries are all non-negative and sum to
exactly 1: the output is always a probability distribution. -/
theorem claim_C10_softmax_distribution (values : List JSVal) (precision : ℝ)
    (hne : values ≠ []) :
    (calculateSoftmax values precision).length = values.length
    ∧ (∀ p ∈ calculateSoftmax values precision, 0 ≤ p)
    ∧ (calculateSoftmax values precision).sum = 1 :=
  ⟨softmax_length values precision, softmax_nonneg values precision,
    softmax_sum_one values precision hne⟩

/-- Witness for C10 on the all-`NaN` singleton input. -/
theorem claim_C10_witness : (calculateSoftmax [JSVal.nan] 0).sum = 1 :=
  (claim_C10_softmax_distribution [JSVal.nan] 0 (List.cons_ne_nil _ _)).2.2

/-! ## Claim C2 -/

theorem finiteVals_ne_nil_of_mem {values : List JSVal} {w : JSVal}
    (hw : w ∈ values) (hf : w.isFinite = true) : finiteVals values ≠ [] := by
  cases w with
  | fin y =>
    intro hc
    have hy : y ∈ finiteVals values := List.mem_filterMap.mpr ⟨_, hw, rfl⟩
    rw [hc] at hy
    exact List.not_mem_nil y hy
  | inf => simp [JSVal.isFinite] at hf
  | neginf => simp [JSVal.isFinite] at hf
  | nan => simp [JSVal.isFinite] at hf

theorem softmax_equal_pair (x γ : ℝ) :
    calculateSoftmax [JSVal.fin x, JSVal.fin x] γ = [1 / 2, 1 / 2] := by
  have hfe : finiteVals [JSVal.fin x, JSVal.fin x] = [x, x] := by
    simp [finiteVals, JSVal.toReal?]
  have hmax : maxList (finiteVals [JSVal.fin x, JSVal.fin x]) = x := by
    rw [hfe]
    simp [maxList]
  have hw : softmaxWeights [JSVal.fin x, JSVal.fin x] γ = [1, 1] := by
    unfold softmaxWeights
    rw [hmax]
    simp [softmaxWeight, sub_self, Real.exp_zero]
  rw [softmax_main_branch _ _ (by rw [hfe]; exact List.cons_ne_nil _ _), hw]
  norm_num

theorem softmax_zero_inf (γ : ℝ) :
    calculateSoftmax [JSVal.fin 0, JSVal.inf] γ = [1, 0] := by
  have hfe : finiteVals [JSVal.fin 0, JSVal.inf] = [0] := by
    simp [finiteVals, JSVal.toReal?]
  have hmax : maxList (finiteVals [JSVal.fin 0, JSVal.inf]) = 0 := by
    rw [hfe]
    simp [maxList]
  have hw : softmaxWeights [JSVal.fin 0, JSVal.inf] γ = [1, 0] := by
    unfold softmaxWeights
    rw [hmax]
    simp [softmaxWeight, sub_self, Real.exp_zero]
  rw [softmax_main_branch _ _ (by rw [hfe]; exact List.cons_ne_nil _ _), hw]
  norm_num

/-- C2.  For every nonempty EFE array and precision γ > 0,
`calculateSoftmax`:

* assigns the finite entries probabilities proportional (with one positive
  constant `c`) to `exp(-γ * (efe[i] - min_finite_efe))` — the source's shift
  by the maximum finite value only changes the constant, confirming that the
  shift is for numerical stability only;
* assigns probability 0 to every non-finite entry as soon as one entry is
  finite;
* normalizes the output to sum to 1;
* returns a uniform distribution when all entries are non-finite;
* assigns probability 1 to a unique finite entry;
* returns `[0.5, 0.5]` on `[x, x]` and `[1, 0]` on `[0, Infinity]`. -/
theorem claim_C2_softmax_spec (values : List JSVal) (γ : ℝ) (hγ : 0 < γ)
    (hne : values ≠ []) :
    (∃ c : ℝ, 0 < c ∧ ∀ (i : ℕ) (x : ℝ), values.get? i = some (JSVal.fin x) →
      (calculateSoftmax values γ).get? i
        = some (c * Real.exp (-γ * (x - specMinFiniteEFE values))))
    ∧ (∀ (i : ℕ) (v : JSVal), values.get? i = some v → v.isFinite = false →
      (∃ w ∈ values, w.isFinite = true) →
      (calculateSoftmax values γ).get? i = some 0)
    ∧ (calculateSoftmax values γ).sum = 1
    ∧ ((∀ v ∈ values, v.isFinite = false) →
      calculateSoftmax values γ = values.map (fun _ => 1 / (values.length : ℝ)))
    ∧ ((finiteVals values).length = 1 → ∀ (i : ℕ) (x : ℝ),
      values.get? i = some (JSVal.fin x) →
      (calculateSoftmax values γ).get? i = some 1)
    ∧ (∀ x : ℝ, calculateSoftmax [JSVal.fin x, JSVal.fin x] γ = [1 / 2, 1 / 2])
    ∧ calculateSoftmax [JSVal.fin 0, JSVal.inf] γ = [1, 0] := by
  refine ⟨?_, ?_, softmax_sum_one values γ hne, ?_, ?_,
    (fun x => softmax_equal_pair x γ), softmax_zero_inf γ⟩
  · by_cases hfe : finiteVals values = []
    · refine ⟨1, one_pos, ?_⟩
      intro i x hx
      have hmem : x ∈ finiteVals values :=
        List.mem_filterMap.mpr ⟨_, List.get?_mem hx, rfl⟩
      rw [hfe] at hmem
      exact absurd hmem (List.not_mem_nil x)
    · have hS : (0 : ℝ) < (softmaxWeights values γ).sum :=
        lt_of_lt_of_le one_pos (one_le_weights_sum values γ hfe)
      refine ⟨Real.exp (γ * (maxList (finiteVals values) - specMinFiniteEFE values))
        / (softmaxWeights values γ).sum, by positivity, ?_⟩
      intro i x hx
      rw [softmax_main_branch values γ hfe]
      unfold softmaxWeights
      rw [List.map_map, List.get?_map, hx]
      simp only [Function.comp, softmaxWeight, Option.map_some', Option.some.injEq]
      rw [div_mul_eq_mul_div, ← Real.exp_add]
      congr 2
      ring
  · intro i v hv hnf ⟨w, hw, hfw⟩
    exact softmax_nonfinite_eq_zero values γ (finiteVals_ne_nil_of_mem hw hfw) i v hv hnf
  · intro hall
    have hfe : finiteVals values = [] := by
      apply List.filterMap_eq_nil_iff.mpr
      intro a ha
      cases a with
      | fin y => exact absurd (hall (JSVal.fin y) ha) (by simp [JSVal.isFinite])
      | inf => rfl
      | neginf => rfl
      | nan => rfl
    unfold calculateSoftmax
    rw [if_pos (by rw [hfe]; rfl)]
  · intro hlen i x hx
    obtain ⟨y, hy⟩ := List.length_eq_one.mp hlen
    have hmem : x ∈ finiteVals values :=
      List.mem_filterMap.mpr ⟨_, List.get?_mem hx, rfl⟩
    rw [hy] at hmem
    have hxy : x = y := by simpa using hmem
    have hS : (softmaxWeights values γ).sum = 1 := by
      unfold softmaxWeights
      rw [map_weight_sum, hy]
      simp [maxList, sub_self, Real.exp_zero]
    rw [softmax_main_branch values γ (by rw [hy]; exact List.cons_ne_nil _ _), hS]
    unfold softmaxWeights
    rw [List.map_map, List.get?_map, hx]
    have hm : maxList (finiteVals values) = y := by
      rw [hy]
      rfl
    simp [Function.comp, softmaxWeight, hxy, hm, sub_self, Real.exp_zero]

/-- Witness for C2 at precision 1 on `[0, Infinity]`. -/
theorem claim_C2_witness :
    (0 : ℝ) < 1 ∧ calculateSoftmax [JSVal.fin 0, JSVal.inf] 1 = [1, 0] :=
  ⟨one_pos, (claim_C2_softmax_spec [JSVal.fin 0, JSVal.inf] 1 one_pos
    (List.cons_ne_nil _ _)).2.2.2.2.2.2⟩

/-! ## Claim C7 -/

theorem clampEFE_ne_nan : ∀ e : JSVal, clampEFE e ≠ JSVal.nan := by
  intro e
  cases e <;> simp [clampEFE, jsMin, jsMax, JSVal.isNaN]

theorem clampEFE_nan : clampEFE JSVal.nan = JSVal.inf := rfl

theorem sum_getD_range : ∀ l : List ℝ,
    (∑ m in Finset.range l.length, l.getD m 0) = l.sum := by
  intro l
  induction l with
  | nil => simp
  | cons x t ih =>
    rw [List.length_cons, Finset.sum_range_succ']
    simp only [List.getD_cons_succ, List.getD_cons_zero, List.sum_cons]
    rw [ih, add_comm]

theorem cdfLoop_pos_hit (f : ℕ → ℝ) (u : ℝ) :
    ∀ (n k : ℕ) (acc : ℝ), acc < u →
      u ≤ acc + ∑ m in Finset.range n, f (k + m) →
      ∃ j, cdfLoop f u n acc k = some j ∧ 0 < f j ∧ k ≤ j ∧ j < k + n := by
  intro n
  induction n with
  | zero =>
    intro k acc hacc hle
    simp only [Finset.range_zero, Finset.sum_empty, add_zero] at hle
    linarith
  | succ n ih =>
    intro k acc hacc hle
    simp only [cdfLoop]
    by_cases hk : u ≤ acc + f k
    · rw [if_pos hk]
      exact ⟨k, rfl, by linarith, le_refl k, by omega⟩
    · rw [if_neg hk]
      push_neg at hk
      have heq : (∑ m in Finset.range (n + 1), f (k + m))
          = (∑ m in Finset.range n, f (k + 1 + m)) + f k := by
        rw [Finset.sum_range_succ' (fun m => f (k + m)) n, add_zero]
        congr 1
        exact Finset.sum_congr rfl (fun m _ => congrArg f (by omega))
      rw [heq] at hle
      obtain ⟨j, hj, hfj, hkj, hjn⟩ := ih (k + 1) (acc + f k) hk (by linarith)
      exact ⟨j, hj, hfj, by omega, by omega⟩

theorem softmax_inf_zero (γ : ℝ) :
    calculateSoftmax [JSVal.inf, JSVal.fin 0] γ = [0, 1] := by
  have hfe : finiteVals [JSVal.inf, JSVal.fin 0] = [0] := by
    simp [finiteVals, JSVal.toReal?]
  have hmax : maxList (finiteVals [JSVal.inf, JSVal.fin 0]) = 0 := by
    rw [hfe]
    simp [maxList]
  have hw : softmaxWeights [JSVal.inf, JSVal.fin 0] γ = [0, 1] := by
    unfold softmaxWeights
    rw [hmax]
    simp [softmaxWeight, sub_self, Real.exp_zero]
  rw [softmax_main_branch _ _ (by rw [hfe]; exact List.cons_ne_nil _ _), hw]
  norm_num

theorem selectPolicyIdx_finite (efes : List JSVal) (γ u : ℝ)
    (hu0 : 0 < u) (hu1 : u < 1) (hfin : ∃ w ∈ efes, w.isFinite = true) :
    ∃ v, efes.get? (selectPolicyIdx (calculateSoftmax efes γ) u) = some v
      ∧ v.isFinite = true := by
  obtain ⟨w, hw, hfw⟩ := hfin
  have hne : efes ≠ [] := fun hc => by rw [hc] at hw; exact List.not_mem_nil w hw
  have hsum : (calculateSoftmax efes γ).sum = 1 := softmax_sum_one efes γ hne
  have hlen : (calculateSoftmax efes γ).length = efes.length := softmax_length efes γ
  have happ : u ≤ 0 + ∑ m in Finset.range (calculateSoftmax efes γ).length,
      (calculateSoftmax efes γ).getD (0 + m) 0 := by
    simp only [Nat.zero_add]
    rw [zero_add, sum_getD_range, hsum]
    exact le_of_lt hu1
  obtain ⟨j, hj, hfj, -, hjlt⟩ :=
    cdfLoop_pos_hit (fun k => (calculateSoftmax efes γ).getD k 0) u
      (calculateSoftmax efes γ).length 0 0 hu0 happ
  have hsel : selectPolicyIdx (calculateSoftmax efes γ) u = j := by
    unfold selectPolicyIdx
    rw [hj]
  rw [hsel]
  have hjefes : j < efes.length := by omega
  obtain ⟨v, hv⟩ : ∃ v, efes.get? j = some v :=
    ⟨efes.get ⟨j, hjefes⟩, List.get?_eq_some.mpr ⟨hjefes, rfl⟩⟩
  refine ⟨v, hv, ?_⟩
  by_contra hnf
  have hnf' : v.isFinite = false := by
    revert hnf
    cases v.isFinite <;> simp
  have hz := softmax_nonfinite_eq_zero efes γ (finiteVals_ne_nil_of_mem hw hfw) j v hv hnf'
  have hzero : (calculateSoftmax efes γ).getD j 0 = 0 := by
    rw [List.getD_eq_getD_get? (calculateSoftmax efes γ) 0 j, hz]
    rfl
  simp only [hzero] at hfj
  exact absurd hfj (lt_irrefl 0)

/-- Counterexample to C7 as stated: when the uniform draw is exactly 0 (a
value `Math.random()` can return), the inverse-CDF policy sampler selects
index 0 even though its policy has a non-finite EFE and softmax probability
0 — here with the EFE array `[Infinity, 0]`, whose softmax distribution is
`[0, 1]`. -/
theorem claim_C7_counterexample :
    JSVal.isFinite JSVal.inf = false
    ∧ calculateSoftmax [JSVal.inf, JSVal.fin 0] 1 = [0, 1]
    ∧ selectPolicyIdx (calculateSoftmax [JSVal.inf, JSVal.fin 0] 1) 0 = 0 := by
  refine ⟨rfl, softmax_inf_zero 1, ?_⟩
  rw [softmax_inf_zero 1]
  have hloop : cdfLoop (fun k => ([0, 1] : List ℝ).getD k 0) 0 2 0 0 = some 0 := by
    simp only [cdfLoop]
    rw [if_pos (by simp)]
  unfold selectPolicyIdx
  simp only [List.length_cons, List.length_singleton, List.length_nil]
  rw [hloop]

/-- C7, amended.  The final guard of `calculateEFE` never returns `NaN` and
maps a `NaN` EFE to `+Infinity`; `calculateSoftmax` assigns probability 0 to
every `Infinity`/`-Infinity`/`NaN` entry whenever at least one entry is
finite; and for every uniform draw in the open interval `(0, 1)` the
inverse-CDF policy sampler selects a policy whose EFE is finite.  (At draw
exactly 0 the sampler can return index 0 regardless of its probability, see
the counterexample.) -/
theorem claim_C7_nonfinite_efe :
    (∀ e : JSVal, clampEFE e ≠ JSVal.nan)
    ∧ clampEFE JSVal.nan = JSVal.inf
    ∧ (∀ (values : List JSVal) (γ : ℝ) (i : ℕ) (v : JSVal),
        values.get? i = some v → v.isFinite = false →
        (∃ w ∈ values, w.isFinite = true) →
        (calculateSoftmax values γ).get? i = some 0)
    ∧ (∀ (efes : List JSVal) (γ u : ℝ), 0 < u → u < 1 →
        (∃ w ∈ efes, w.isFinite = true) →
        ∃ v, efes.get? (selectPolicyIdx (calculateSoftmax efes γ) u) = some v
          ∧ v.isFinite = true) := by
  refine ⟨clampEFE_ne_nan, clampEFE_nan, ?_, ?_⟩
  · intro values γ i v hv hnf hfin
    obtain ⟨w, hw, hfw⟩ := hfin
    exact softmax_nonfinite_eq_zero values γ (finiteVals_ne_nil_of_mem hw hfw) i v hv hnf
  · intro efes γ u hu0 hu1 hfin
    exact selectPolicyIdx_finite efes γ u hu0 hu1 hfin

/-- Witness for C7 at the EFE array `[Infinity, 0]` with draw 1/2. -/
theorem claim_C7_witness :
    (0 : ℝ) < 1 / 2 ∧ (1 : ℝ) / 2 < 1
    ∧ ∃ v, [JSVal.inf, JSVal.fin 0].get?
        (selectPolicyIdx (calculateSoftmax [JSVal.inf, JSVal.fin 0] 1) (1 / 2))
          = some v ∧ v.isFinite = true := by
  refine ⟨by norm_num, by norm_num, ?_⟩
  exact claim_C7_nonfinite_efe.2.2.2 [JSVal.inf, JSVal.fin 0] 1 (1 / 2)
    (by norm_num) (by norm_num) ⟨JSVal.fin 0, by simp, rfl⟩
